import Mathlib

/-! Verification of the track/spline core of the `twisty_beziers` repository:
a shallow embedding of `src/track.rs` together with the tessellation routines
of `src/main.rs`, and theorems settling the specification claims about them.

Modeling conventions.  `f32` values are idealized as real numbers; machine
behavior with no real-number counterpart is modeled explicitly where the code
can reach it:
- a follower cursor that becomes non-finite (IEEE `rate / 0.0 = ±inf`) is
  modeled as the `none` cursor, which yields no further samples, exactly as a
  `±inf` cursor makes `sample_collection` return `None` forever (the saturating
  `as i64` cast sends `±inf` outside any slice);
- the `as u16` cast and `u16` addition in index generation are modeled as
  reduction modulo 2 ^ 16 (release-mode wrapping semantics);
- `Option` results model Rust `Option` returns, and a `none` from
  `TrackSample::quaternion` models the `.unwrap()` panic on `None`;
- nalgebra's epsilon-guarded `Unit::try_new` is idealized with epsilon 0. -/

open scoped Classical

noncomputable section

/-- Three-component real vector, modeling both `nalgebra::Vector3<f32>` and
`nalgebra::Point3<f32>` (the source converts freely between them via `.coords`). -/
@[ext]
structure Vec3 where
  x : ℝ
  y : ℝ
  z : ℝ

instance : Add Vec3 := ⟨fun a b => ⟨a.x + b.x, a.y + b.y, a.z + b.z⟩⟩

instance : Sub Vec3 := ⟨fun a b => ⟨a.x - b.x, a.y - b.y, a.z - b.z⟩⟩

instance : Neg Vec3 := ⟨fun a => ⟨-a.x, -a.y, -a.z⟩⟩

instance : SMul ℝ Vec3 := ⟨fun c v => ⟨c * v.x, c * v.y, c * v.z⟩⟩

instance : Zero Vec3 := ⟨⟨0, 0, 0⟩⟩

@[simp] theorem Vec3.add_def (a b c d e f : ℝ) :
    (⟨a, b, c⟩ + ⟨d, e, f⟩ : Vec3) = ⟨a + d, b + e, c + f⟩ := rfl

@[simp] theorem Vec3.sub_def (a b c d e f : ℝ) :
    (⟨a, b, c⟩ - ⟨d, e, f⟩ : Vec3) = ⟨a - d, b - e, c - f⟩ := rfl

@[simp] theorem Vec3.smul_def (r a b c : ℝ) :
    (r • (⟨a, b, c⟩ : Vec3)) = ⟨r * a, r * b, r * c⟩ := rfl

@[simp] theorem Vec3.zero_def : (0 : Vec3) = ⟨0, 0, 0⟩ := rfl

/-- Dot product (`nalgebra` `dot`). -/
def Vec3.dot (a b : Vec3) : ℝ := a.x * b.x + a.y * b.y + a.z * b.z

/-- Cross product (`nalgebra` `cross`). -/
def Vec3.cross (a b : Vec3) : Vec3 :=
  ⟨a.y * b.z - a.z * b.y, a.z * b.x - a.x * b.z, a.x * b.y - a.y * b.x⟩

/-- Squared Euclidean norm. -/
def Vec3.normSq (v : Vec3) : ℝ := v.x ^ 2 + v.y ^ 2 + v.z ^ 2

/-- Euclidean norm (`nalgebra` `magnitude`). -/
def Vec3.norm (v : Vec3) : ℝ := Real.sqrt v.normSq

/-- Quaternion with scalar part `w` and vector part `(x, y, z)`, modeling
`nalgebra::UnitQuaternion<f32>` (the code only ever builds unit quaternions,
but none of the definitions below require unitality). -/
structure Quat where
  w : ℝ
  x : ℝ
  y : ℝ
  z : ℝ

/-- Hamilton product. -/
def Quat.mul (p q : Quat) : Quat :=
  ⟨p.w * q.w - p.x * q.x - p.y * q.y - p.z * q.z,
   p.w * q.x + p.x * q.w + p.y * q.z - p.z * q.y,
   p.w * q.y - p.x * q.z + p.y * q.w + p.z * q.x,
   p.w * q.z + p.x * q.y - p.y * q.x + p.z * q.w⟩

instance : Mul Quat := ⟨Quat.mul⟩

@[simp] theorem Quat.mul_def (p q : Quat) : p * q = Quat.mul p q := rfl

/-- Quaternion conjugate; for unit quaternions this is the inverse. -/
def Quat.conj (q : Quat) : Quat := ⟨q.w, -q.x, -q.y, -q.z⟩

/-- The identity quaternion (`UnitQuaternion::identity`). -/
def Quat.one : Quat := ⟨1, 0, 0, 0⟩

/-- A vector viewed as a pure quaternion. -/
def Quat.ofVec (v : Vec3) : Quat := ⟨0, v.x, v.y, v.z⟩

/-- Vector part of a quaternion. -/
def Quat.vec (q : Quat) : Vec3 := ⟨q.x, q.y, q.z⟩

/-- Model of `UnitQuaternion::transform_vector`: the sandwich `q v q⁻¹`
(with `q⁻¹ = conj q` for the unit quaternions the code constructs). -/
def transform_vector (q : Quat) (v : Vec3) : Vec3 :=
  (q * Quat.ofVec v * q.conj).vec

/-- Model of `nalgebra::Unit::try_new` (epsilon idealized to 0): `none` on the
zero vector, otherwise the normalized vector. -/
def try_normalize (v : Vec3) : Option Vec3 :=
  if v.normSq = 0 then none else some ((1 / v.norm) • v)

/-- Model of `nalgebra::Unit::new_normalize` (no zero check; a zero input is a
NaN frame in `f32`, which has no real counterpart — the claims under
verification never evaluate it at zero). -/
def new_normalize (v : Vec3) : Vec3 := (1 / v.norm) • v

/-- Model of `UnitQuaternion::from_axis_angle` for a unit `axis`:
`(cos (θ/2), sin (θ/2) · axis)`. -/
def from_axis_angle (axis : Vec3) (angle : ℝ) : Quat :=
  ⟨Real.cos (angle / 2), Real.sin (angle / 2) * axis.x,
   Real.sin (angle / 2) * axis.y, Real.sin (angle / 2) * axis.z⟩

/-- Model of `UnitQuaternion::rotation_between` (nalgebra's
`scaled_rotation_between` with factor 1): normalize both vectors (identity if
either is zero); rotate about the normalized cross product by
`arccos` of the dot product; if the cross product vanishes, return the
identity for parallel vectors and `None` for anti-parallel ones. -/
def rotation_between (a b : Vec3) : Option Quat :=
  match try_normalize a, try_normalize b with
  | some na, some nb =>
    match try_normalize (na.cross nb) with
    | some ax => some (from_axis_angle ax (Real.arccos (na.dot nb)))
    | none => if na.dot nb < 0 then none else some Quat.one
  | _, _ => some Quat.one

/-- `TrackControl` from `src/track.rs`. -/
structure TrackControl where
  position : Vec3
  direction : Vec3
  angle : ℝ

/-- `TrackControl::front_ctrlp`. -/
def TrackControl.front_ctrlp (c : TrackControl) : Vec3 := c.position + c.direction

/-- `TrackControl::back_ctrlp`. -/
def TrackControl.back_ctrlp (c : TrackControl) : Vec3 := c.position - c.direction

/-- `TrackSample` from `src/track.rs`. -/
structure TrackSample where
  position : Vec3
  derivative : Vec3
  angle : ℝ
  index : ℝ

/-- `TrackSample::quaternion`.  The source is
`from_axis_angle(&new_normalize(derivative), angle) * rotation_between(axis, derivative).unwrap()`;
the `none` result models the panic of `.unwrap()` on `None`. -/
def TrackSample.quaternion (s : TrackSample) (axis : Vec3) : Option Quat :=
  (rotation_between axis s.derivative).map
    (fun r => from_axis_angle (new_normalize s.derivative) s.angle * r)

/-- `smooth_step` from `src/track.rs`. -/
def smooth_step (i : ℝ) : ℝ := i * i * (3 - 2 * i)

/-- `lerp` from `src/track.rs`. -/
def lerp (a b i : ℝ) : ℝ := a * (1 - i) + b * i

/-- `spline` from `src/track.rs` (`powf` on the nonnegative bases the code
uses agrees with the natural power). -/
def spline (b e : TrackControl) (i : ℝ) : Vec3 :=
  (((1 - i) ^ 3) • b.position) + ((3 * (1 - i) ^ 2 * i) • b.front_ctrlp) +
    ((3 * (1 - i) * i ^ 2) • e.back_ctrlp) + ((i ^ 3) • e.position)

/-- `spline_deriv` from `src/track.rs`. -/
def spline_deriv (b e : TrackControl) (i : ℝ) : Vec3 :=
  ((3 * (1 - i) ^ 2) • (b.front_ctrlp - b.position)) +
    ((6 * (1 - i) * i) • (e.back_ctrlp - b.front_ctrlp)) +
    ((3 * i ^ 2) • (e.position - e.back_ctrlp))

/-- `sample` from `src/track.rs`. -/
def sample (b e : TrackControl) (i : ℝ) : TrackSample :=
  { position := spline b e i
    derivative := spline_deriv b e i
    angle := lerp b.angle e.angle (smooth_step i)
    index := i }

/-- Truncation toward zero, modeling Rust's `f32 as i64` cast (the saturation
of that cast at the `i64` range never changes any result below: a saturated
base is still outside every slice). -/
def rtrunc (t : ℝ) : ℤ := if 0 ≤ t then ⌊t⌋ else ⌈t⌉

/-- `sample_collection` from `src/track.rs`.  `base` is the truncated-toward-
zero parameter; the `usize` conversion fails on negatives; `t - base` is
Rust's `fract()`. -/
def sample_collection (controls : List TrackControl) (t : ℝ) : Option TrackSample :=
  if rtrunc t < 0 then none
  else
    match controls[(rtrunc t).toNat]?, controls[(rtrunc t).toNat + 1]? with
    | some b, some e => some { sample b e (t - ((rtrunc t) : ℝ)) with index := t }
    | _, _ => none

/-- One call of `<TrackFollower as Iterator>::next` on a follower with the
given cursor.  A `none` cursor models a non-finite (`±inf`) `f32` cursor, from
which no further sample is ever produced; a finite cursor stepping by
`rate / 0.0` becomes non-finite, hence the `none` successor cursor when the
derivative magnitude is zero.  (The only unreachable corner of this model is
`rate = 0` together with magnitude 0, which in `f32` produces NaN samples;
no claim involves a zero rate.) -/
def follower_next (controls : List TrackControl) (rate : ℝ) :
    Option ℝ → Option (TrackSample × Option ℝ)
  | none => none
  | some i =>
    (sample_collection controls i).map fun s =>
      (s, if s.derivative.norm = 0 then none else some (i + rate / s.derivative.norm))

/-- Fuel-bounded unfolding of the follower, recording each yielded sample
together with the cursor value `follower.i` left after the advance (the
tessellator reads that post-advance cursor as its `w` coordinate). -/
def follower_pairs (controls : List TrackControl) (rate : ℝ) :
    ℕ → Option ℝ → List (TrackSample × Option ℝ)
  | 0, _ => []
  | fuel + 1, cur =>
    match follower_next controls rate cur with
    | none => []
    | some (s, cur') => (s, cur') :: follower_pairs controls rate fuel cur'

/-- The samples yielded by `TrackFollower::new(controls, rate)` (cursor
starting at 0), up to `fuel` iterations. -/
def follower_samples (controls : List TrackControl) (rate : ℝ) (fuel : ℕ) :
    List TrackSample :=
  (follower_pairs controls rate fuel (some 0)).map Prod.fst

/-- `klystron::Vertex`: `{ pos: [f32; 3], color: [f32; 3] }`. -/
structure Vertex where
  pos : Vec3
  color : Vec3

/-- `road_norm` from `src/main.rs`: the sample's orientation quaternion applied
to the z axis; `none` models the panic inside `TrackSample::quaternion`. -/
def road_norm (s : TrackSample) : Option Vec3 :=
  (s.quaternion ⟨1, 0, 0⟩).map fun q => transform_vector q ⟨0, 0, 1⟩

/-- The inclusive integer range `a..=b` of a Rust `for lane in a..=b` loop. -/
def int_range_incl (a b : ℤ) : List ℤ :=
  (List.range (b + 1 - a).toNat).map fun k => a + Int.ofNat k

/-- One row of the vertex-generation loop of `track_tess_path`
(`src/main.rs` lines 166-176): `normal = road_norm(sample) * width`,
`u = lane / total_lanes`, `pos = sample.position + normal * (u * width)`,
color `[(u + 0.5) / 2, sample.index / max_idx, w]` where `w` is the
post-advance cursor `follower.i`. -/
def row_vertices (s : TrackSample) (w : ℝ) (lanes : ℤ) (width maxIdx : ℝ) :
    Option (List Vertex) :=
  (road_norm s).map fun rn =>
    let normal := width • rn
    let v := s.index / maxIdx
    (int_range_incl (-lanes) lanes).map fun (lane : ℤ) =>
      let u := (lane : ℝ) / ((lanes * 2 + 1 : ℤ) : ℝ)
      { pos := s.position + (u * width) • normal, color := ⟨(u + 0.5) / 2, v, w⟩ }

/-- Wrap to `u16` range: models the `as u16` cast. -/
def wrap16 (n : ℕ) : ℕ := n % 65536

/-- Wrapping `u16` addition (release-mode semantics of `+` on `u16`). -/
def u16add (a b : ℕ) : ℕ := (a + b) % 65536

/-- The index-generation loop of `track_tess_path` (`src/main.rs` lines
178-193): for `row in 0..total_rows-1` and `col in 0..total_lanes-1`, push the
six corners of the two triangles of the quad, as `u16` values. -/
def tess_indices (total_rows : ℕ) (total_lanes : ℤ) : List ℕ :=
  (List.range (total_rows - 1)).flatMap fun row =>
    (List.range (total_lanes - 1).toNat).flatMap fun col =>
      let ln := total_lanes.toNat
      let idx := wrap16 (row * ln + col)
      let tl := wrap16 ln
      [idx, u16add idx 1, u16add idx tl, u16add (u16add idx tl) 1,
       u16add idx tl, u16add idx 1]

/-- Monadic map over `Option`, modeling a loop whose body can panic: the
result is `none` as soon as one element's computation panics. -/
def map_opt {α β : Type} (f : α → Option β) : List α → Option (List β)
  | [] => some []
  | a :: l =>
    match f a, map_opt f l with
    | some b, some l' => some (b :: l')
    | _, _ => none

/-- `track_tess_path` from `src/main.rs`, with fuel bounding the follower
loop: collect one vertex row per follower sample (`max_idx = segments.len()`),
then tessellate `total_rows` rows of `total_lanes = lanes * 2 + 1` columns
into the index buffer.  The `w` color channel of a row whose post-advance
cursor is non-finite has no real counterpart and is modeled as 0; no claim
constrains that channel. -/
def track_tess_path (fuel : ℕ) (segments : List TrackControl) (lanes : ℤ)
    (width resolution : ℝ) : Option (List Vertex × List ℕ) :=
  (map_opt
      (fun p => row_vertices p.1 (p.2.getD 0) lanes width (segments.length : ℝ))
      (follower_pairs segments resolution fuel (some 0))).map
    fun vss =>
      (vss.flatten,
       tess_indices (follower_pairs segments resolution fuel (some 0)).length
         (lanes * 2 + 1))

/-- Comparison definition for claim C6, following the spec's words: the
standard cubic Bézier position over four control points. -/
def bezier_point (p0 p1 p2 p3 : Vec3) (i : ℝ) : Vec3 :=
  (((1 - i) ^ 3) • p0) + ((3 * (1 - i) ^ 2 * i) • p1) +
    ((3 * (1 - i) * i ^ 2) • p2) + ((i ^ 3) • p3)

/-- Comparison definition for claim C9, following the claim's words: the
twist rotation about the raw derivative axis applied first and the aligning
rotation applied second, i.e. the aligning rotation is the left factor of the
composition acting on vectors. -/
def quaternion_claim_order (s : TrackSample) (axis : Vec3) : Option Quat :=
  (rotation_between axis s.derivative).map
    (fun r => r * from_axis_angle (new_normalize s.derivative) s.angle)

/-- Demo control point at the origin with tangent `(1,0,0)`. -/
def ctrlA : TrackControl := ⟨⟨0, 0, 0⟩, ⟨1, 0, 0⟩, 0⟩

/-- Demo control point at `(3,0,0)` with tangent `(1,0,0)`. -/
def ctrlB : TrackControl := ⟨⟨3, 0, 0⟩, ⟨1, 0, 0⟩, 0⟩

/-- A straight two-control demo track whose derivative is the constant
`(3,0,0)` (handles are collinear and evenly spaced). -/
def demo_track : List TrackControl := [ctrlA, ctrlB]

/-- A degenerate demo track whose controls have zero tangents, so the
derivative at parameter 0 is the zero vector (a cusp). -/
def cusp_track : List TrackControl :=
  [⟨⟨0, 0, 0⟩, ⟨0, 0, 0⟩, 0⟩, ⟨⟨1, 0, 0⟩, ⟨0, 0, 0⟩, 0⟩]

/-- Demo sample on the straight track: derivative `(3,0,0)`, twist 0. -/
def demo_sample0 : TrackSample := ⟨⟨0, 0, 0⟩, ⟨3, 0, 0⟩, 0, 0⟩

/-- Demo sample whose derivative `(7/25, 24/25, 0)` is a unit vector not
parallel to the x axis, with twist `π`; used to separate the two composition
orders of the orientation construction. -/
def twist_sample : TrackSample := ⟨⟨0, 0, 0⟩, ⟨7 / 25, 24 / 25, 0⟩, Real.pi, 0⟩

/-- Demo sample whose derivative `(-2,0,0)` is exactly anti-parallel to the
reference axis `(1,0,0)`. -/
def antipar_sample : TrackSample := ⟨⟨0, 0, 0⟩, ⟨-2, 0, 0⟩, 0, 0⟩

/-- The vertex buffer `track_tess_path 3 demo_track 1 2 (3/2)` produces: two
rows of three vertices across the straight track. -/
def demo_vs : List Vertex :=
  [⟨⟨0, 0, -(4/3)⟩, ⟨1/12, 0, 1/2⟩⟩, ⟨⟨0, 0, 0⟩, ⟨1/4, 0, 1/2⟩⟩,
   ⟨⟨0, 0, 4/3⟩, ⟨5/12, 0, 1/2⟩⟩,
   ⟨⟨3/2, 0, -(4/3)⟩, ⟨1/12, 1/4, 1⟩⟩, ⟨⟨3/2, 0, 0⟩, ⟨1/4, 1/4, 1⟩⟩,
   ⟨⟨3/2, 0, 4/3⟩, ⟨5/12, 1/4, 1⟩⟩]

/-- The index buffer for 2 rows of 3 columns. -/
def demo_ixs : List ℕ := [0, 1, 3, 4, 3, 1, 1, 2, 4, 5, 4, 2]

@[simp] theorem Vec3.add_x (a b : Vec3) : (a + b).x = a.x + b.x := rfl

@[simp] theorem Vec3.add_y (a b : Vec3) : (a + b).y = a.y + b.y := rfl

@[simp] theorem Vec3.add_z (a b : Vec3) : (a + b).z = a.z + b.z := rfl

@[simp] theorem Vec3.sub_x (a b : Vec3) : (a - b).x = a.x - b.x := rfl

@[simp] theorem Vec3.sub_y (a b : Vec3) : (a - b).y = a.y - b.y := rfl

@[simp] theorem Vec3.sub_z (a b : Vec3) : (a - b).z = a.z - b.z := rfl

@[simp] theorem Vec3.smul_x (r : ℝ) (a : Vec3) : (r • a).x = r * a.x := rfl

@[simp] theorem Vec3.smul_y (r : ℝ) (a : Vec3) : (r • a).y = r * a.y := rfl

@[simp] theorem Vec3.smul_z (r : ℝ) (a : Vec3) : (r • a).z = r * a.z := rfl

@[simp] theorem Vec3.neg_x (a : Vec3) : (-a).x = -a.x := rfl

@[simp] theorem Vec3.neg_y (a : Vec3) : (-a).y = -a.y := rfl

@[simp] theorem Vec3.neg_z (a : Vec3) : (-a).z = -a.z := rfl

theorem Vec3.normSq_nonneg (v : Vec3) : 0 ≤ v.normSq := by
  unfold Vec3.normSq; positivity

theorem Vec3.normSq_eq_zero_iff (v : Vec3) : v.normSq = 0 ↔ v = ⟨0, 0, 0⟩ := by
  unfold Vec3.normSq
  constructor
  · intro h
    have hx : v.x = 0 ∧ v.y = 0 ∧ v.z = 0 := by
      constructor
      · nlinarith [sq_nonneg v.x, sq_nonneg v.y, sq_nonneg v.z]
      constructor
      · nlinarith [sq_nonneg v.x, sq_nonneg v.y, sq_nonneg v.z]
      · nlinarith [sq_nonneg v.x, sq_nonneg v.y, sq_nonneg v.z]
    cases v
    simp_all
  · intro h; subst h; norm_num

theorem Vec3.norm_nonneg (v : Vec3) : 0 ≤ v.norm := Real.sqrt_nonneg _

theorem Vec3.norm_eq_zero_iff (v : Vec3) : v.norm = 0 ↔ v.normSq = 0 := by
  unfold Vec3.norm
  exact Real.sqrt_eq_zero (Vec3.normSq_nonneg v)

theorem Vec3.norm_pos (v : Vec3) (h : v.normSq ≠ 0) : 0 < v.norm :=
  Real.sqrt_pos.mpr (lt_of_le_of_ne (Vec3.normSq_nonneg v) (Ne.symm h))

theorem Vec3.norm_mul_self (v : Vec3) : v.norm * v.norm = v.normSq :=
  Real.mul_self_sqrt (Vec3.normSq_nonneg v)

/-- Evaluate a norm whose squared norm is a perfect square. -/
theorem Vec3.norm_eval (v : Vec3) (r : ℝ) (hr : 0 ≤ r) (h : v.normSq = r ^ 2) :
    v.norm = r := by
  rw [Vec3.norm, h, Real.sqrt_sq hr]

theorem Vec3.normSq_smul (c : ℝ) (v : Vec3) : (c • v).normSq = c ^ 2 * v.normSq := by
  cases v; simp [Vec3.normSq]; ring

theorem Vec3.norm_smul (c : ℝ) (v : Vec3) : (c • v).norm = |c| * v.norm := by
  rw [Vec3.norm, Vec3.normSq_smul, Real.sqrt_mul (sq_nonneg c), Real.sqrt_sq_eq_abs,
    Vec3.norm]

theorem Vec3.smul_smul (r s : ℝ) (v : Vec3) : r • s • v = (r * s) • v := by
  cases v; ext <;> simp <;> ring

theorem Vec3.cross_smul_smul (r s : ℝ) (v : Vec3) :
    (r • v).cross (s • v) = ⟨0, 0, 0⟩ := by
  cases v; ext <;> simp [Vec3.cross] <;> ring

theorem Vec3.dot_smul_smul (r s : ℝ) (v w : Vec3) :
    (r • v).dot (s • w) = r * s * v.dot w := by
  cases v; cases w; simp [Vec3.dot]; ring

theorem Vec3.dot_self (v : Vec3) : v.dot v = v.normSq := by
  cases v; simp [Vec3.dot, Vec3.normSq]; ring

theorem Quat.one_mul' (q : Quat) : Quat.one * q = q := by
  cases q; simp [Quat.mul, Quat.one]

theorem Quat.mul_one' (q : Quat) : q * Quat.one = q := by
  cases q; simp [Quat.mul, Quat.one]

theorem transform_vector_one (v : Vec3) : transform_vector Quat.one v = v := by
  cases v
  simp [transform_vector, Quat.one, Quat.conj, Quat.ofVec, Quat.mul, Quat.vec]

theorem from_axis_angle_zero (ax : Vec3) : from_axis_angle ax 0 = Quat.one := by
  simp [from_axis_angle, Quat.one]

/-- `try_normalize` on a nonzero vector. -/
theorem try_normalize_of_ne (v : Vec3) (h : v.normSq ≠ 0) :
    try_normalize v = some ((1 / v.norm) • v) := by
  rw [try_normalize, if_neg h]

/-- `try_normalize` on the zero vector. -/
theorem try_normalize_zero : try_normalize ⟨0, 0, 0⟩ = none := by
  rw [try_normalize, if_pos (by norm_num [Vec3.normSq])]

/-- `rotation_between` of a vector with a nonzero multiple of itself:
identity for a positive factor (parallel branch), `none` for a negative
factor (anti-parallel branch, where nalgebra finds no unique rotation). -/
theorem rotation_between_smul_self (a : Vec3) (c : ℝ) (hc : c ≠ 0)
    (ha : a.normSq ≠ 0) :
    rotation_between a (c • a) = if c < 0 then none else some Quat.one := by
  have hsq : (0:ℝ) < a.normSq := lt_of_le_of_ne (Vec3.normSq_nonneg a) (Ne.symm ha)
  have hb : (c • a).normSq ≠ 0 := by
    rw [Vec3.normSq_smul]
    exact mul_ne_zero (pow_ne_zero 2 hc) ha
  have hna : (0:ℝ) < a.norm := Vec3.norm_pos a ha
  have hnb : (0:ℝ) < (c • a).norm := Vec3.norm_pos _ hb
  rw [rotation_between, try_normalize_of_ne a ha, try_normalize_of_ne _ hb,
    Vec3.smul_smul]
  have hcross : ((1 / a.norm) • a).cross ((1 / (c • a).norm * c) • a) = ⟨0, 0, 0⟩ :=
    Vec3.cross_smul_smul _ _ a
  have hdot : ((1 / a.norm) • a).dot ((1 / (c • a).norm * c) • a) =
      1 / a.norm * (1 / (c • a).norm * c) * a.normSq := by
    rw [Vec3.dot_smul_smul, Vec3.dot_self]
  simp only [hcross, try_normalize_zero, hdot]
  rcases lt_or_gt_of_ne hc with h | h
  · have h1 : (0:ℝ) < 1 / a.norm := by positivity
    have h2 : 1 / (c • a).norm * c < 0 := mul_neg_of_pos_of_neg (by positivity) h
    rw [if_pos (mul_neg_of_neg_of_pos (mul_neg_of_pos_of_neg h1 h2) hsq), if_pos h]
  · have h1 : (0:ℝ) < 1 / a.norm := by positivity
    have h2 : (0:ℝ) < 1 / (c • a).norm * c := mul_pos (by positivity) h
    rw [if_neg (not_lt.mpr (le_of_lt (mul_pos (mul_pos h1 h2) hsq))),
      if_neg (not_lt.mpr h.le)]

/-- Whenever `sample_collection` produces a sample, the sample's `index`
field is the original global parameter. -/
theorem sample_collection_index (controls : List TrackControl) (t : ℝ)
    (s : TrackSample) (h : sample_collection controls t = some s) : s.index = t := by
  rw [sample_collection] at h
  split at h
  · exact absurd h (by simp)
  · split at h
    · have := (Option.some.injEq _ _).mp h
      rw [← this]
    · exact absurd h (by simp)

theorem rtrunc_of_Ico (t : ℝ) (h0 : 0 ≤ t) (h1 : t < 1) : rtrunc t = 0 := by
  rw [rtrunc, if_pos h0]
  exact Int.floor_eq_zero_iff.mpr ⟨h0, h1⟩

/-- Evaluation of `sample_collection` on a list with at least two controls at
a parameter in `[0, 1)`. -/
theorem sample_collection_cons2 (c0 c1 : TrackControl) (rest : List TrackControl)
    (t : ℝ) (h0 : 0 ≤ t) (h1 : t < 1) :
    sample_collection (c0 :: c1 :: rest) t = some { sample c0 c1 t with index := t } := by
  rw [sample_collection, rtrunc_of_Ico t h0 h1]
  norm_num

/-- The straight demo track yields, at any parameter in `[0, 1)`, the sample
`(3t, 0, 0)` with constant derivative `(3, 0, 0)` and twist 0. -/
theorem demo_sample_eval (t : ℝ) (h0 : 0 ≤ t) (h1 : t < 1) :
    sample_collection demo_track t = some ⟨⟨3 * t, 0, 0⟩, ⟨3, 0, 0⟩, 0, t⟩ := by
  rw [demo_track, sample_collection_cons2 ctrlA ctrlB [] t h0 h1]
  refine congrArg some ?_
  have hpos : spline ctrlA ctrlB t = ⟨3 * t, 0, 0⟩ := by
    ext <;>
      simp [spline, ctrlA, ctrlB, TrackControl.front_ctrlp, TrackControl.back_ctrlp] <;>
      ring
  have hder : spline_deriv ctrlA ctrlB t = ⟨3, 0, 0⟩ := by
    ext <;>
      simp [spline_deriv, ctrlA, ctrlB, TrackControl.front_ctrlp,
        TrackControl.back_ctrlp] <;>
      ring
  have hang : lerp ctrlA.angle ctrlB.angle (smooth_step t) = 0 := by
    simp [ctrlA, ctrlB, lerp]
  simp [sample, hpos, hder, hang]

theorem norm_300 : (⟨3, 0, 0⟩ : Vec3).norm = 3 :=
  Vec3.norm_eval _ 3 (by norm_num) (by norm_num [Vec3.normSq])

theorem norm_000 : (⟨0, 0, 0⟩ : Vec3).norm = 0 := by
  rw [Vec3.norm]
  norm_num [Vec3.normSq]

/-- One follower step on the straight demo track from a cursor in `[0, 1)`:
the yielded sample and the cursor advanced by `rate / 3`. -/
theorem demo_next (t rate : ℝ) (h0 : 0 ≤ t) (h1 : t < 1) :
    follower_next demo_track rate (some t) =
      some (⟨⟨3 * t, 0, 0⟩, ⟨3, 0, 0⟩, 0, t⟩, some (t + rate / 3)) := by
  simp only [follower_next, demo_sample_eval t h0 h1, Option.map_some']
  norm_num [norm_300]

theorem demo_sc_one : sample_collection demo_track 1 = none := by
  have h : rtrunc 1 = 1 := by rw [rtrunc, if_pos (by norm_num)]; norm_num
  rw [sample_collection, h]
  norm_num [demo_track]

/-- C1: contrary to the claim, `TrackSample::quaternion` does not resolve an
exactly anti-parallel derivative/reference pair to a perpendicular fallback
axis: `rotation_between` returns `None` on anti-parallel vectors and the
source's `.unwrap()` panics, modeled by the `none` result.  This holds for
every sample whose derivative is a negative multiple of the (nonzero)
reference axis. -/
theorem quaternion_antiparallel_panics (s : TrackSample) (axis : Vec3) (c : ℝ)
    (hc : c < 0) (hd : s.derivative = c • axis) (ha : axis.normSq ≠ 0) :
    s.quaternion axis = none := by
  rw [TrackSample.quaternion, hd, rotation_between_smul_self axis c hc.ne ha,
    if_pos hc, Option.map_none']

/-- Witness for C1 at the concrete failing input: derivative `(-2, 0, 0)`,
reference axis `(1, 0, 0)`. -/
theorem quaternion_antiparallel_panics_w :
    antipar_sample.quaternion ⟨1, 0, 0⟩ = none :=
  quaternion_antiparallel_panics antipar_sample ⟨1, 0, 0⟩ (-2) (by norm_num)
    (by ext <;> norm_num [antipar_sample]) (by norm_num [Vec3.normSq])

/-- C2: contrary to the claim, `TrackFollower::next` advances the cursor by
`rate / |derivative|` with no epsilon floor.  On the cusp track the first
sample's derivative is the zero vector, the divisor is 0 and the `f32` cursor
becomes non-finite (modeled by the `none` cursor) instead of stepping by the
claimed finite `rate / max(|derivative|, eps)`. -/
theorem follower_step_unclamped :
    follower_next cusp_track 1 (some 0) =
      some (⟨⟨0, 0, 0⟩, ⟨0, 0, 0⟩, 0, 0⟩, none) := by
  have hsc : sample_collection cusp_track 0 =
      some ⟨⟨0, 0, 0⟩, ⟨0, 0, 0⟩, 0, 0⟩ := by
    rw [cusp_track, sample_collection_cons2 _ _ _ 0 le_rfl (by norm_num)]
    refine congrArg some ?_
    have hpos : spline ⟨⟨0, 0, 0⟩, ⟨0, 0, 0⟩, 0⟩ ⟨⟨1, 0, 0⟩, ⟨0, 0, 0⟩, 0⟩ (0:ℝ) =
        ⟨0, 0, 0⟩ := by
      ext <;> simp [spline, TrackControl.front_ctrlp, TrackControl.back_ctrlp]
    have hder : spline_deriv ⟨⟨0, 0, 0⟩, ⟨0, 0, 0⟩, 0⟩ ⟨⟨1, 0, 0⟩, ⟨0, 0, 0⟩, 0⟩ (0:ℝ) =
        ⟨0, 0, 0⟩ := by
      ext <;> simp [spline_deriv, TrackControl.front_ctrlp, TrackControl.back_ctrlp]
    simp [sample, hpos, hder, lerp, smooth_step]
  simp only [follower_next, hsc, Option.map_some']
  rw [if_pos norm_000]

/-- C3 (amended): `sample_collection controls t` is empty exactly when
`t ≤ -1`, or `t ≥ len - 1`, or the slice has fewer than 2 controls — not when
`t < 0` as claimed, because the `as i64` cast truncates toward zero, so every
`t` in `(-1, 0)` selects segment 0.  Whenever a sample is returned, its
`index` field equals the original `t`. -/
theorem sample_collection_domain (controls : List TrackControl) (t : ℝ) :
    (sample_collection controls t = none ↔
      t ≤ -1 ∨ (controls.length : ℝ) - 1 ≤ t ∨ controls.length < 2) ∧
    (∀ s, sample_collection controls t = some s → s.index = t) := by
  constructor
  · rw [sample_collection]
    by_cases hb : rtrunc t < 0
    · rw [if_pos hb]
      have ht : t ≤ -1 := by
        rcases le_or_lt 0 t with h | h
        · exfalso
          rw [rtrunc, if_pos h] at hb
          exact absurd (Int.floor_nonneg.mpr h) (not_le.mpr hb)
        · rw [rtrunc, if_neg (not_le.mpr h)] at hb
          have hle : ⌈t⌉ ≤ -1 := by omega
          have : (⌈t⌉ : ℝ) ≤ -1 := by exact_mod_cast hle
          exact le_trans (Int.le_ceil t) this
      simp [ht]
    · rw [if_neg hb]
      push_neg at hb
      have hbnat : ((rtrunc t).toNat : ℤ) = rtrunc t := Int.toNat_of_nonneg hb
      have hnone : (match controls[(rtrunc t).toNat]?, controls[(rtrunc t).toNat + 1]? with
          | some b, some e => some { sample b e (t - ((rtrunc t) : ℝ)) with index := t }
          | _, _ => none) = none ↔ controls.length ≤ (rtrunc t).toNat + 1 := by
        cases h0 : controls[(rtrunc t).toNat]? with
        | none =>
          have hl0 := List.getElem?_eq_none_iff.mp h0
          exact ⟨fun _ => by omega, fun _ => rfl⟩
        | some b =>
          cases h1 : controls[(rtrunc t).toNat + 1]? with
          | none =>
            exact ⟨fun _ => List.getElem?_eq_none_iff.mp h1, fun _ => rfl⟩
          | some e =>
            have hl1 := (List.getElem?_eq_some_iff.mp h1).1
            exact ⟨fun h => absurd h (by simp), fun h => absurd hl1 (by omega)⟩
      rw [hnone]
      have htneg : ¬ t ≤ -1 := by
        intro hle
        have h0 : ¬ (0:ℝ) ≤ t := by linarith
        rw [rtrunc, if_neg h0] at hb
        have h2 : ⌈t⌉ ≤ (-1 : ℤ) := Int.ceil_le.mpr (by exact_mod_cast hle)
        omega
      rcases le_or_lt 0 t with h | h
      · rw [rtrunc, if_pos h] at hb hbnat ⊢
        constructor
        · intro hlen
          rcases lt_or_le controls.length 2 with h2 | h2
          · exact Or.inr (Or.inr h2)
          · refine Or.inr (Or.inl ?_)
            have : (controls.length : ℤ) - 1 ≤ ⌊t⌋ := by omega
            have := Int.le_floor.mp this
            push_cast at this ⊢
            linarith
        · intro hdisj
          rcases hdisj with h1 | h1 | h1
          · exact absurd h1 htneg
          · have hzf : (controls.length : ℤ) - 1 ≤ ⌊t⌋ := by
              apply Int.le_floor.mpr
              push_cast
              linarith
            omega
          · have hf : (0:ℤ) ≤ ⌊t⌋ := Int.floor_nonneg.mpr h
            omega
      · have hceil : rtrunc t = 0 := by
          rw [rtrunc, if_neg (not_le.mpr h)] at hb ⊢
          have h1 : ⌈t⌉ ≤ 0 := Int.ceil_le.mpr (by exact_mod_cast h.le)
          omega
        rw [hceil]
        constructor
        · intro hlen
          exact Or.inr (Or.inr (by omega))
        · intro hdisj
          rcases hdisj with h1 | h1 | h1
          · exact absurd h1 htneg
          · rcases lt_or_le controls.length 2 with h2 | h2
            · omega
            · exfalso
              have : (1:ℝ) ≤ (controls.length : ℝ) - 1 := by
                have : (2:ℝ) ≤ (controls.length : ℝ) := by exact_mod_cast h2
                linarith
              linarith
          · omega
  · exact fun s h => sample_collection_index controls t s h

/-- Counterexample for C3 as stated: at `t = -1/2 < 0` the claim requires an
empty result, but the code returns a sample (the `as i64` cast truncates
`-1/2` to base 0). -/
theorem sample_collection_negative_t_not_empty :
    sample_collection demo_track (-(1/2)) ≠ none ∧ (-(1/2) : ℝ) < 0 := by
  constructor
  · have hr : rtrunc (-(1/2) : ℝ) = 0 := by
      rw [rtrunc, if_neg (by norm_num)]
      norm_num
    rw [sample_collection, hr]
    simp [demo_track]
  · norm_num

/-- Witness for the amended C3: out-of-domain parameter (`t = 5` on a
two-control track) yields the empty result. -/
theorem sample_collection_domain_w : sample_collection demo_track 5 = none :=
  (sample_collection_domain demo_track 5).1.mpr
    (Or.inr (Or.inl (by norm_num [demo_track])))

/-- A successful follower step yields the sample at the current cursor
(`index = i`), and any finite successor cursor is strictly larger when the
rate is positive. -/
theorem follower_next_some (controls : List TrackControl) (rate i : ℝ)
    (s : TrackSample) (cur' : Option ℝ)
    (h : follower_next controls rate (some i) = some (s, cur')) :
    s.index = i ∧ ∀ j, cur' = some j → 0 < rate → i < j := by
  rw [follower_next] at h
  cases hsc : sample_collection controls i with
  | none => rw [hsc] at h; exact absurd h (by simp)
  | some s0 =>
    rw [hsc] at h
    simp only [Option.map_some'] at h
    have h' := (Option.some.injEq _ _).mp h
    have h1 : s0 = s := congrArg Prod.fst h'
    have h2 : (if s0.derivative.norm = 0 then none
        else some (i + rate / s0.derivative.norm)) = cur' := congrArg Prod.snd h'
    constructor
    · rw [← h1]
      exact sample_collection_index controls i s0 hsc
    · intro j hj hr
      rw [← h2] at hj
      by_cases hn : s0.derivative.norm = 0
      · rw [if_pos hn] at hj
        exact absurd hj (by simp)
      · rw [if_neg hn] at hj
        have hj' := (Option.some.injEq _ _).mp hj
        have hpos : 0 < s0.derivative.norm :=
          lt_of_le_of_ne (Vec3.norm_nonneg _) (Ne.symm hn)
        have hstep : 0 < rate / s0.derivative.norm := div_pos hr hpos
        rw [← hj']
        linarith

/-- A `none` (non-finite) cursor yields no further samples. -/
theorem follower_pairs_none (controls : List TrackControl) (rate : ℝ) (fuel : ℕ) :
    follower_pairs controls rate fuel none = [] := by
  cases fuel <;> rfl

/-- Every sample yielded from cursor `i` onward has `index ≥ i` (positive
rate). -/
theorem follower_pairs_index_ge (controls : List TrackControl) (rate : ℝ)
    (hr : 0 < rate) :
    ∀ (fuel : ℕ) (i : ℝ), ∀ p ∈ follower_pairs controls rate fuel (some i),
      i ≤ p.1.index := by
  intro fuel
  induction fuel with
  | zero => intro i p hp; exact absurd hp (by simp [follower_pairs])
  | succ n ih =>
    intro i p hp
    rw [follower_pairs] at hp
    cases hn : follower_next controls rate (some i) with
    | none => rw [hn] at hp; exact absurd hp (by simp)
    | some sc =>
      rw [hn] at hp
      obtain ⟨s, cur'⟩ := sc
      rcases List.mem_cons.mp hp with hph | hph
      · rw [hph]
        exact le_of_eq ((follower_next_some controls rate i s cur' hn).1).symm
      · cases cur' with
        | none =>
          rw [follower_pairs_none] at hph
          exact absurd hph (by simp)
        | some j =>
          have hij : i < j := (follower_next_some controls rate i s _ hn).2 j rfl hr
          exact le_trans hij.le (ih j p hph)

/-- The `index` values of the samples yielded from any starting cursor are
strictly increasing (positive rate). -/
theorem follower_pairs_pairwise (controls : List TrackControl) (rate : ℝ)
    (hr : 0 < rate) :
    ∀ (fuel : ℕ) (i : ℝ),
      ((follower_pairs controls rate fuel (some i)).map fun p => p.1.index).Pairwise
        (· < ·) := by
  intro fuel
  induction fuel with
  | zero => intro i; simp [follower_pairs]
  | succ n ih =>
    intro i
    rw [follower_pairs]
    cases hn : follower_next controls rate (some i) with
    | none => simp
    | some sc =>
      obtain ⟨s, cur'⟩ := sc
      simp only [List.map_cons]
      refine List.pairwise_cons.mpr ⟨?_, ?_⟩
      · intro b hb
        obtain ⟨q, hq, rfl⟩ := List.mem_map.mp hb
        cases cur' with
        | none =>
          rw [follower_pairs_none] at hq
          exact absurd hq (by simp)
        | some j =>
          have hij : i < j := (follower_next_some controls rate i s _ hn).2 j rfl hr
          have hjq : j ≤ q.1.index := follower_pairs_index_ge controls rate hr n j q hq
          have hsi : s.index = i := (follower_next_some controls rate i s _ hn).1
          rw [hsi]
          linarith
      · cases cur' with
        | none => rw [follower_pairs_none]; simp
        | some j => exact ih j

/-- C7: for every control slice and strictly positive rate, the samples
yielded by a follower created at `i = 0` have strictly increasing `index`
(`param`) values, for any number of iterations. -/
theorem follower_params_strictly_increase (controls : List TrackControl)
    (rate : ℝ) (fuel : ℕ) (hr : 0 < rate) :
    ((follower_samples controls rate fuel).map TrackSample.index).Pairwise (· < ·) := by
  rw [follower_samples, List.map_map]
  exact follower_pairs_pairwise controls rate hr fuel 0

/-- Witness for C7 on the straight demo track with rate `3/2`. -/
theorem follower_params_strictly_increase_w :
    ((follower_samples demo_track (3/2) 3).map TrackSample.index).Pairwise (· < ·) :=
  follower_params_strictly_increase demo_track (3/2) 3 (by norm_num)

/-- `sample_collection` at any in-segment parameter of a slice with fewer
than two controls is empty. -/
theorem sample_collection_degenerate (controls : List TrackControl)
    (h : controls.length ≤ 1) (t : ℝ) (h0 : 0 ≤ t) (h1 : t < 1) :
    sample_collection controls t = none := by
  rw [sample_collection, rtrunc_of_Ico t h0 h1]
  rw [if_neg (by norm_num)]
  have hn : controls[(0:ℤ).toNat + 1]? = none :=
    List.getElem?_eq_none_iff.mpr (by simp; omega)
  cases hc : controls[(0:ℤ).toNat]? with
  | none => rfl
  | some b => rw [hn]

/-- C8: degeneracy policy.  Zero or one control points make the follower
sequence empty and `track_tess_path` return empty vertex and index buffers;
fewer than 2 rows, or fewer than 2 vertex columns per row
(`total_lanes = 2*lanes+1 < 2`, i.e. `lanes ≤ 0`), make the index buffer
empty. -/
theorem degenerate_inputs_empty (fuel : ℕ) (segments : List TrackControl)
    (lanes : ℤ) (width res : ℝ) (rows : ℕ) (L : ℤ) :
    (segments.length ≤ 1 →
      follower_pairs segments res fuel (some 0) = [] ∧
      track_tess_path fuel segments lanes width res = some ([], [])) ∧
    (rows < 2 → tess_indices rows L = []) ∧
    (L < 2 → tess_indices rows L = []) := by
  refine ⟨?_, ?_, ?_⟩
  · intro h
    have hfn : follower_next segments res (some 0) = none := by
      rw [follower_next,
        sample_collection_degenerate segments h 0 le_rfl (by norm_num)]
      rfl
    have hp : follower_pairs segments res fuel (some 0) = [] := by
      cases fuel with
      | zero => rfl
      | succ n => rw [follower_pairs, hfn]
    refine ⟨hp, ?_⟩
    simp only [track_tess_path, hp]
    simp [map_opt, tess_indices]
  · intro h
    have h1 : rows - 1 = 0 := by omega
    simp [tess_indices, h1]
  · intro h
    have h1 : (L - 1).toNat = 0 := by omega
    simp [tess_indices, h1]

/-- Witness for C8: a one-control track gives empty follower sequence and
empty buffers; one row or one column gives an empty index buffer. -/
theorem degenerate_inputs_empty_w :
    (follower_pairs [ctrlA] (1:ℝ) 2 (some 0) = [] ∧
      track_tess_path 2 [ctrlA] 1 2 1 = some ([], [])) ∧
    tess_indices 1 3 = [] ∧ tess_indices 5 1 = [] :=
  ⟨(degenerate_inputs_empty 2 [ctrlA] 1 2 1 1 3).1 (by simp),
   (degenerate_inputs_empty 2 [ctrlA] 1 2 1 1 3).2.1 (by norm_num),
   (degenerate_inputs_empty 2 [ctrlA] 1 2 1 5 1).2.2 (by norm_num)⟩

/-- C6: `spline` is the cubic Bézier over
`(begin.position, begin.position + begin.direction, end.position - end.direction, end.position)`
and interpolates the endpoints exactly at local parameters 0 and 1. -/
theorem spline_is_endpoint_exact_bezier (b e : TrackControl) (i : ℝ) :
    spline b e i =
      bezier_point b.position (b.position + b.direction) (e.position - e.direction)
        e.position i ∧
    spline b e 0 = b.position ∧ spline b e 1 = e.position := by
  refine ⟨rfl, ?_, ?_⟩
  · ext <;> simp [spline, TrackControl.front_ctrlp, TrackControl.back_ctrlp]
  · ext <;> simp [spline, TrackControl.front_ctrlp, TrackControl.back_ctrlp]

theorem u16_chain (a b : ℕ) : u16add (wrap16 a) (wrap16 b) = (a + b) % 65536 := by
  rw [u16add, wrap16, wrap16, ← Nat.add_mod]

theorem u16_chain1 (a : ℕ) : u16add (wrap16 a) 1 = (a + 1) % 65536 := by
  rw [u16add, wrap16, Nat.mod_add_mod]

theorem u16_chain2 (a b : ℕ) :
    u16add (u16add (wrap16 a) (wrap16 b)) 1 = (a + b + 1) % 65536 := by
  rw [u16_chain, u16add, Nat.mod_add_mod]

/-- Every index emitted by the tessellation loop is of the form
`(row * total_lanes + col + off) mod 2^16` with `off` one of
`0, 1, total_lanes, total_lanes + 1`, for an in-range `(row, col)` quad. -/
theorem tess_indices_mem (rows : ℕ) (L : ℤ) (ix : ℕ)
    (h : ix ∈ tess_indices rows L) :
    ∃ row col off, row < rows - 1 ∧ col < (L - 1).toNat ∧
      (off = 0 ∨ off = 1 ∨ off = L.toNat ∨ off = L.toNat + 1) ∧
      ix = (row * L.toNat + col + off) % 65536 := by
  rw [tess_indices] at h
  obtain ⟨row, hrow, h⟩ := List.mem_flatMap.mp h
  obtain ⟨col, hcol, h⟩ := List.mem_flatMap.mp h
  rw [List.mem_range] at hrow
  rw [List.mem_range] at hcol
  simp only [List.mem_cons, List.not_mem_nil, or_false] at h
  rcases h with h | h | h | h | h | h
  · exact ⟨row, col, 0, hrow, hcol, by norm_num, by rw [h, wrap16, Nat.add_zero]⟩
  · exact ⟨row, col, 1, hrow, hcol, by norm_num, by rw [h, u16_chain1]⟩
  · exact ⟨row, col, L.toNat, hrow, hcol, by norm_num, by rw [h, u16_chain]⟩
  · exact ⟨row, col, L.toNat + 1, hrow, hcol, by norm_num,
      by rw [h, u16_chain2, ← Nat.add_assoc]⟩
  · exact ⟨row, col, L.toNat, hrow, hcol, by norm_num, by rw [h, u16_chain]⟩
  · exact ⟨row, col, 1, hrow, hcol, by norm_num, by rw [h, u16_chain1]⟩

/-- Every emitted index is below the vertex count `rows * total_lanes` —
the `mod 2^16` reduction can only shrink an index. -/
theorem tess_indices_lt (rows : ℕ) (L : ℤ) (ix : ℕ) (h : ix ∈ tess_indices rows L) :
    ix < rows * L.toNat := by
  obtain ⟨row, col, off, hrow, hcol, hoff, hix⟩ := tess_indices_mem rows L ix h
  have hL1 : 1 ≤ L := by
    by_contra hL
    push_neg at hL
    have : (L - 1).toNat = 0 := by omega
    omega
  obtain ⟨r2, hr2⟩ : ∃ r2, rows = r2 + 2 := ⟨rows - 2, by omega⟩
  obtain ⟨c2, hc2⟩ : ∃ c2, L.toNat = c2 + 2 := by
    rcases Nat.lt_or_ge L.toNat 2 with h2 | h2
    · exfalso; omega
    · exact ⟨L.toNat - 2, by omega⟩
  have h1 : row ≤ r2 := by omega
  have h2 : col ≤ c2 := by omega
  have h3 : off ≤ c2 + 3 := by omega
  have h4 : row * (c2 + 2) ≤ r2 * (c2 + 2) := Nat.mul_le_mul_right _ h1
  have h5 := Nat.mod_le (row * L.toNat + col + off) 65536
  rw [hix, hr2, hc2]
  rw [hc2] at h5
  calc (row * (c2 + 2) + col + off) % 65536 ≤ row * (c2 + 2) + col + off := h5
    _ ≤ r2 * (c2 + 2) + c2 + (c2 + 3) := Nat.add_le_add (Nat.add_le_add h4 h2) h3
    _ < (r2 + 2) * (c2 + 2) := by nlinarith

/-- Length of a `flatMap` whose blocks all have length `k`. -/
theorem flatMap_const_length {α β : Type} (f : α → List β) (k : ℕ)
    (l : List α) (hf : ∀ a ∈ l, (f a).length = k) :
    (l.flatMap f).length = l.length * k := by
  induction l with
  | nil => simp
  | cons a as ih =>
    rw [List.flatMap_cons, List.length_append, hf a (List.mem_cons_self a as),
      ih (fun x hx => hf x (List.mem_cons_of_mem a hx)), List.length_cons]
    ring

/-- Length of the emitted index buffer: 6 entries per quad,
`(rows - 1) * (total_lanes - 1)` quads. -/
theorem tess_indices_length (rows : ℕ) (L : ℤ) :
    (tess_indices rows L).length = (rows - 1) * ((L - 1).toNat * 6) := by
  rw [tess_indices]
  rw [flatMap_const_length _ ((L - 1).toNat * 6) _ ?_]
  · rw [List.length_range]
  · intro row hrow
    have hblk := flatMap_const_length
      (fun col => [wrap16 (row * L.toNat + col), u16add (wrap16 (row * L.toNat + col)) 1,
        u16add (wrap16 (row * L.toNat + col)) (wrap16 L.toNat),
        u16add (u16add (wrap16 (row * L.toNat + col)) (wrap16 L.toNat)) 1,
        u16add (wrap16 (row * L.toNat + col)) (wrap16 L.toNat),
        u16add (wrap16 (row * L.toNat + col)) 1]) 6 (List.range (L - 1).toNat)
      (fun c _ => rfl)
    rw [hblk, List.length_range]

/-- `map_opt` preserves length when it succeeds. -/
theorem map_opt_length {α β : Type} (f : α → Option β) (l : List α)
    (l' : List β) (h : map_opt f l = some l') : l'.length = l.length := by
  induction l generalizing l' with
  | nil =>
    rw [map_opt] at h
    cases h
    rfl
  | cons a as ih =>
    rw [map_opt] at h
    cases hf : f a with
    | none => rw [hf] at h; exact absurd h (by simp)
    | some b =>
      rw [hf] at h
      cases hm : map_opt f as with
      | none => rw [hm] at h; exact absurd h (by simp)
      | some bs =>
        rw [hm] at h
        cases h
        simp [ih bs hm]

/-- When every per-element list has length `L`, the flattened successful
`map_opt` result has length `l.length * L`. -/
theorem map_opt_flatten_length {α β : Type} (f : α → Option (List β))
    (l : List α) (L : ℕ) (hf : ∀ a ∈ l, ∀ r, f a = some r → r.length = L)
    (l' : List (List β)) (h : map_opt f l = some l') :
    l'.flatten.length = l.length * L := by
  induction l generalizing l' with
  | nil =>
    rw [map_opt] at h
    cases h
    simp
  | cons a as ih =>
    rw [map_opt] at h
    cases hfa : f a with
    | none => rw [hfa] at h; exact absurd h (by simp)
    | some b =>
      rw [hfa] at h
      cases hm : map_opt f as with
      | none => rw [hm] at h; exact absurd h (by simp)
      | some bs =>
        rw [hm] at h
        cases h
        have hb : b.length = L := hf a (List.mem_cons_self a as) b hfa
        have hbs : bs.flatten.length = as.length * L :=
          ih (fun x hx => hf x (List.mem_cons_of_mem a hx)) bs hm
        simp [hb, hbs]
        ring

/-- A successful `row_vertices` has one vertex per lane column:
`(lanes * 2 + 1).toNat` of them. -/
theorem row_vertices_length (s : TrackSample) (w : ℝ) (lanes : ℤ)
    (width maxIdx : ℝ) (r : List Vertex)
    (h : row_vertices s w lanes width maxIdx = some r) :
    r.length = (lanes * 2 + 1).toNat := by
  rw [row_vertices] at h
  cases hr : road_norm s with
  | none => rw [hr] at h; exact absurd h (by simp)
  | some n =>
    rw [hr] at h
    simp only [Option.map_some'] at h
    cases h
    simp only [int_range_incl, List.length_map, List.length_range]
    omega

/-- C5: for every tessellation that completes, the index buffer has exactly
`6 * (rows - 1) * (2 * lanes)` entries (`rows` being the number of yielded
sample rows), and every index is strictly below the vertex count. -/
theorem ribbon_index_buffer (fuel : ℕ) (segments : List TrackControl)
    (lanes : ℤ) (width res : ℝ) (hl : 0 ≤ lanes) (vs : List Vertex)
    (ixs : List ℕ)
    (h : track_tess_path fuel segments lanes width res = some (vs, ixs)) :
    ixs.length =
      6 * ((follower_pairs segments res fuel (some 0)).length - 1) *
        (2 * lanes).toNat ∧
    ∀ ix ∈ ixs, ix < vs.length := by
  rw [track_tess_path] at h
  cases hmo : map_opt
      (fun p => row_vertices p.1 (p.2.getD 0) lanes width (segments.length : ℝ))
      (follower_pairs segments res fuel (some 0)) with
  | none => rw [hmo] at h; exact absurd h (by simp)
  | some vss =>
    rw [hmo] at h
    simp only [Option.map_some'] at h
    have hv : vss.flatten = vs := congrArg Prod.fst ((Option.some.injEq _ _).mp h)
    have hi : tess_indices (follower_pairs segments res fuel (some 0)).length
        (lanes * 2 + 1) = ixs := congrArg Prod.snd ((Option.some.injEq _ _).mp h)
    constructor
    · rw [← hi, tess_indices_length]
      have h21 : (lanes * 2 + 1 - 1).toNat = (2 * lanes).toNat := by omega
      rw [h21]
      ring
    · intro ix hix
      rw [← hi] at hix
      have hlt := tess_indices_lt _ _ ix hix
      rw [← hv]
      have hflat : vss.flatten.length =
          (follower_pairs segments res fuel (some 0)).length *
            (lanes * 2 + 1).toNat :=
        map_opt_flatten_length _ _ _
          (fun p _ r hr => row_vertices_length _ _ _ _ _ _ hr) vss hmo
      rw [hflat]
      exact hlt

/-- C10: every emitted index is `(row * (2*lanes+1) + col + off) mod 2^16`
with `off` one of `0, 1, 2*lanes+1, 2*lanes+2`; and whenever the tessellation
has at least 2 rows, at least 1 lane and `rows * (2*lanes+1) ≥ 65536`
vertices, the buffer contains a wrapped index: since the column count
`2*lanes+1` is odd the vertex count is then at least 65537, so the intended
final corner `rows*(2*lanes+1) - 1` exceeds the `u16` range and the emitted
value differs from it, silently corrupting the row connectivity. -/
theorem index_wraparound (rows lanes : ℕ) :
    (∀ ix ∈ tess_indices rows (2 * (lanes : ℤ) + 1),
      ∃ row col off, row < rows - 1 ∧ col < 2 * lanes ∧
        (off = 0 ∨ off = 1 ∨ off = 2 * lanes + 1 ∨ off = 2 * lanes + 2) ∧
        ix = (row * (2 * lanes + 1) + col + off) % 65536) ∧
    (2 ≤ rows → 1 ≤ lanes → 65536 ≤ rows * (2 * lanes + 1) →
      (rows * (2 * lanes + 1) - 1) % 65536 ≠ rows * (2 * lanes + 1) - 1 ∧
      (rows * (2 * lanes + 1) - 1) % 65536 ∈
        tess_indices rows (2 * (lanes : ℤ) + 1)) := by
  have hTN : (2 * (lanes : ℤ) + 1).toNat = 2 * lanes + 1 := by omega
  have hTN1 : (2 * (lanes : ℤ) + 1 - 1).toNat = 2 * lanes := by omega
  constructor
  · intro ix hix
    obtain ⟨row, col, off, hrow, hcol, hoff, hval⟩ := tess_indices_mem rows _ ix hix
    rw [hTN] at hoff hval
    rw [hTN1] at hcol
    exact ⟨row, col, off, hrow, hcol, by omega, hval⟩
  · intro hrows hlanes hvc
    have hne : rows * (2 * lanes + 1) ≠ 65536 := by
      intro heq
      have hdvd : (2 * lanes + 1) ∣ 2 ^ 16 := by
        refine ⟨rows, ?_⟩
        rw [show (2:ℕ) ^ 16 = 65536 from by norm_num, ← heq]
        ring
      obtain ⟨i, _, h2i⟩ := (Nat.dvd_prime_pow Nat.prime_two).mp hdvd
      cases i with
      | zero => simp at h2i; omega
      | succ j =>
        rw [pow_succ] at h2i
        omega
    have hq : 65537 ≤ rows * (2 * lanes + 1) := by omega
    obtain ⟨A, hA⟩ : ∃ A, (rows - 2) * (2 * lanes + 1) = A := ⟨_, rfl⟩
    have key : rows * (2 * lanes + 1) = A + 2 * (2 * lanes + 1) := by
      calc rows * (2 * lanes + 1) = ((rows - 2) + 2) * (2 * lanes + 1) := by
            congr 1
            omega
        _ = (rows - 2) * (2 * lanes + 1) + 2 * (2 * lanes + 1) := by ring
        _ = A + 2 * (2 * lanes + 1) := by rw [hA]
    constructor
    · have hlt : (rows * (2 * lanes + 1) - 1) % 65536 < 65536 :=
        Nat.mod_lt _ (by norm_num)
      omega
    · rw [tess_indices]
      refine List.mem_flatMap.mpr ⟨rows - 2, List.mem_range.mpr (by omega), ?_⟩
      refine List.mem_flatMap.mpr
        ⟨2 * lanes - 1, List.mem_range.mpr (by rw [hTN1]; omega), ?_⟩
      simp only [List.mem_cons]
      refine Or.inr (Or.inr (Or.inr (Or.inl ?_)))
      rw [u16_chain2, hTN, hA]
      congr 1
      omega

/-- `road_norm` of a sample with derivative `(d, 0, 0)`, `d > 0`, and twist 0:
both orientation factors are the identity, so the lateral axis is the z axis. -/
theorem road_norm_straight (p : Vec3) (d : ℝ) (hd : 0 < d) (idx : ℝ) :
    road_norm ⟨p, ⟨d, 0, 0⟩, 0, idx⟩ = some ⟨0, 0, 1⟩ := by
  have hder : (⟨p, ⟨d, 0, 0⟩, 0, idx⟩ : TrackSample).derivative = d • ⟨1, 0, 0⟩ := by
    ext <;> simp
  have hq : TrackSample.quaternion ⟨p, ⟨d, 0, 0⟩, 0, idx⟩ ⟨1, 0, 0⟩ =
      some Quat.one := by
    rw [TrackSample.quaternion, hder,
      rotation_between_smul_self ⟨1, 0, 0⟩ d hd.ne' (by norm_num [Vec3.normSq]),
      if_neg (not_lt.mpr hd.le), Option.map_some']
    refine congrArg some ?_
    rw [show (⟨p, ⟨d, 0, 0⟩, 0, idx⟩ : TrackSample).angle = 0 from rfl,
      from_axis_angle_zero, Quat.one_mul']
  rw [road_norm, hq, Option.map_some', transform_vector_one]

theorem int_range_incl_neg_one_one : int_range_incl (-1) 1 = [-1, 0, 1] := by
  decide

/-- First demo vertex row (sample at parameter 0, post-advance cursor 1/2). -/
theorem demo_row0 :
    row_vertices ⟨⟨0, 0, 0⟩, ⟨3, 0, 0⟩, 0, 0⟩ (1/2) 1 2 2 =
      some [⟨⟨0, 0, -(4/3)⟩, ⟨1/12, 0, 1/2⟩⟩, ⟨⟨0, 0, 0⟩, ⟨1/4, 0, 1/2⟩⟩,
        ⟨⟨0, 0, 4/3⟩, ⟨5/12, 0, 1/2⟩⟩] := by
  rw [row_vertices, road_norm_straight ⟨0, 0, 0⟩ 3 (by norm_num) 0,
    Option.map_some']
  refine congrArg some ?_
  rw [int_range_incl_neg_one_one]
  simp only [List.map_cons, List.map_nil]
  norm_num

/-- Second demo vertex row (sample at parameter 1/2, post-advance cursor 1). -/
theorem demo_row1 :
    row_vertices ⟨⟨3/2, 0, 0⟩, ⟨3, 0, 0⟩, 0, 1/2⟩ 1 1 2 2 =
      some [⟨⟨3/2, 0, -(4/3)⟩, ⟨1/12, 1/4, 1⟩⟩, ⟨⟨3/2, 0, 0⟩, ⟨1/4, 1/4, 1⟩⟩,
        ⟨⟨3/2, 0, 4/3⟩, ⟨5/12, 1/4, 1⟩⟩] := by
  rw [row_vertices, road_norm_straight ⟨3/2, 0, 0⟩ 3 (by norm_num) (1/2),
    Option.map_some']
  refine congrArg some ?_
  rw [int_range_incl_neg_one_one]
  simp only [List.map_cons, List.map_nil]
  norm_num

/-- The follower on the straight demo track with rate 3/2 yields exactly two
samples (parameters 0 and 1/2) and then exhausts at parameter 1. -/
theorem demo_pairs :
    follower_pairs demo_track (3/2) 3 (some 0) =
      [(⟨⟨0, 0, 0⟩, ⟨3, 0, 0⟩, 0, 0⟩, some (1/2)),
       (⟨⟨3/2, 0, 0⟩, ⟨3, 0, 0⟩, 0, 1/2⟩, some 1)] := by
  have h1 : follower_next demo_track (3/2) (some 0) =
      some (⟨⟨0, 0, 0⟩, ⟨3, 0, 0⟩, 0, 0⟩, some (1/2)) := by
    rw [demo_next 0 (3/2) le_rfl (by norm_num)]
    norm_num
  have h2 : follower_next demo_track (3/2) (some (1/2)) =
      some (⟨⟨3/2, 0, 0⟩, ⟨3, 0, 0⟩, 0, 1/2⟩, some 1) := by
    rw [demo_next (1/2) (3/2) (by norm_num) (by norm_num)]
    norm_num
  have h3 : follower_next demo_track (3/2) (some 1) = none := by
    simp only [follower_next, demo_sc_one, Option.map_none']
  have e1 : follower_pairs demo_track (3/2) 1 (some 1) = [] := by
    have e : follower_pairs demo_track (3/2) (0 + 1) (some 1) = [] := by
      rw [follower_pairs, h3]
    exact e
  have e2 : follower_pairs demo_track (3/2) 2 (some (1/2)) =
      [(⟨⟨3/2, 0, 0⟩, ⟨3, 0, 0⟩, 0, 1/2⟩, some 1)] := by
    have e : follower_pairs demo_track (3/2) (1 + 1) (some (1/2)) =
        [(⟨⟨3/2, 0, 0⟩, ⟨3, 0, 0⟩, 0, 1/2⟩, some 1)] := by
      rw [follower_pairs, h2]
      show (⟨⟨3/2, 0, 0⟩, ⟨3, 0, 0⟩, 0, 1/2⟩, some (1:ℝ)) ::
          follower_pairs demo_track (3/2) 1 (some 1) = _
      rw [e1]
    exact e
  have e3 : follower_pairs demo_track (3/2) (2 + 1) (some 0) =
      [(⟨⟨0, 0, 0⟩, ⟨3, 0, 0⟩, 0, 0⟩, some (1/2)),
       (⟨⟨3/2, 0, 0⟩, ⟨3, 0, 0⟩, 0, 1/2⟩, some 1)] := by
    rw [follower_pairs, h1]
    show (⟨⟨0, 0, 0⟩, ⟨3, 0, 0⟩, 0, 0⟩, some ((1:ℝ)/2)) ::
        follower_pairs demo_track (3/2) 2 (some (1/2)) = _
    rw [e2]
  exact e3

/-- Full evaluation of the demo tessellation: 2 rows, 3 columns, 6 vertices
and 12 indices. -/
theorem demo_tess_eval :
    track_tess_path 3 demo_track 1 2 (3/2) = some (demo_vs, demo_ixs) := by
  rw [track_tess_path, demo_pairs]
  rw [show ((demo_track.length : ℕ) : ℝ) = 2 from by rw [demo_track]; norm_num]
  simp only [map_opt, Option.getD_some, demo_row0, demo_row1, Option.map_some']
  refine congrArg some ?_
  simp only [Prod.mk.injEq]
  constructor
  · rw [demo_vs]
    norm_num [List.flatten]
  · rw [demo_ixs]
    show tess_indices 2 3 = _
    decide

/-- Witness for C5: the demo tessellation has 12 indices
(`6 * (2-1) * (2*1)`), all below the vertex count 6. -/
theorem ribbon_index_buffer_w :
    demo_ixs.length =
      6 * ((follower_pairs demo_track (3/2) 3 (some 0)).length - 1) *
        ((2 * 1 : ℤ)).toNat ∧
    ∀ ix ∈ demo_ixs, ix < demo_vs.length :=
  ribbon_index_buffer 3 demo_track 1 2 (3/2) (by norm_num) demo_vs demo_ixs
    demo_tess_eval

/-- Witness for C10 part (b): 21846 rows of 3 columns give 65538 vertices and
a wrapped final index present in the buffer. -/
theorem index_wraparound_w :
    (21846 * (2 * 1 + 1) - 1) % 65536 ≠ 21846 * (2 * 1 + 1) - 1 ∧
    (21846 * (2 * 1 + 1) - 1) % 65536 ∈ tess_indices 21846 (2 * (1 : ℤ) + 1) :=
  (index_wraparound 21846 1).2 (by norm_num) (by norm_num) (by norm_num)

theorem int_range_incl_getElem (a b : ℤ) (k : ℕ) (hk : k < (b + 1 - a).toNat) :
    (int_range_incl a b)[k]? = some (a + Int.ofNat k) := by
  rw [int_range_incl, List.getElem?_map, List.getElem?_range hk, Option.map_some']

/-- C4 (amended): a successfully emitted row has `2*lanes+1` vertices laid out
along the road-normal axis `n` at positions
`position + ((k - lanes) * width^2 / (2*lanes+1)) • n` for `k = 0 .. 2*lanes`:
evenly spaced with spacing `width^2 / (2*lanes+1)`, spanning
`[-lanes*width^2/(2*lanes+1), +lanes*width^2/(2*lanes+1)]` — not
`[-width/2, +width/2]` as claimed (the configured width is applied twice, and
the extreme fraction is `lanes/(2*lanes+1)`, not `1/2`). -/
theorem row_vertices_spacing (s : TrackSample) (w : ℝ) (lanes : ℤ)
    (width maxIdx : ℝ) (n : Vec3) (hn : road_norm s = some n)
    (r : List Vertex) (hr : row_vertices s w lanes width maxIdx = some r) :
    r.length = (lanes * 2 + 1).toNat ∧
    ∀ k : ℕ, k < (lanes * 2 + 1).toNat →
      (r.map Vertex.pos)[k]? =
        some (s.position +
          ((((k : ℝ) - (lanes : ℝ)) * width ^ 2) / ((lanes : ℝ) * 2 + 1)) • n) := by
  rw [row_vertices, hn, Option.map_some'] at hr
  have hr' := (Option.some.injEq _ _).mp hr
  constructor
  · rw [← hr']
    simp only [int_range_incl, List.length_map, List.length_range]
    omega
  · intro k hk
    rw [← hr', List.map_map, List.getElem?_map,
      int_range_incl_getElem (-lanes) lanes k (by omega), Option.map_some']
    refine congrArg some ?_
    cases n with
    | mk nx ny nz =>
      cases s with
      | mk sp sd sa si =>
        ext <;> simp <;> push_cast <;> ring

/-- Counterexample for C4 as stated: on a straight sample with road normal
`(0,0,1)`, `lanes = 1` and `width = 2`, the first vertex of the emitted row
sits at `(0,0,-4/3)`, while even spacing across `[-width/2, +width/2]` would
put it at `position + (-width/2) • normal = (0,0,-1)`. -/
theorem row_vertices_span_counterexample :
    road_norm ⟨⟨0, 0, 0⟩, ⟨3, 0, 0⟩, 0, 0⟩ = some ⟨0, 0, 1⟩ ∧
    (row_vertices ⟨⟨0, 0, 0⟩, ⟨3, 0, 0⟩, 0, 0⟩ (1/2) 1 2 2).map
      (fun r => r.map Vertex.pos) =
      some [⟨0, 0, -(4/3)⟩, ⟨0, 0, 0⟩, ⟨0, 0, 4/3⟩] ∧
    (⟨0, 0, -(4/3)⟩ : Vec3) ≠
      (⟨0, 0, 0⟩ : Vec3) + (-(2/2) : ℝ) • (⟨0, 0, 1⟩ : Vec3) := by
  refine ⟨road_norm_straight _ 3 (by norm_num) 0, ?_, ?_⟩
  · rw [demo_row0, Option.map_some']
    norm_num
  · intro h
    have hz := congrArg Vec3.z h
    norm_num at hz

/-- Witness for the amended C4 on the first demo row. -/
theorem row_vertices_spacing_w :
    ([⟨⟨0, 0, -(4/3)⟩, ⟨1/12, 0, 1/2⟩⟩, ⟨⟨0, 0, 0⟩, ⟨1/4, 0, 1/2⟩⟩,
        ⟨⟨0, 0, 4/3⟩, ⟨5/12, 0, 1/2⟩⟩] : List Vertex).length =
      ((1 : ℤ) * 2 + 1).toNat ∧
    ∀ k : ℕ, k < ((1 : ℤ) * 2 + 1).toNat →
      (([⟨⟨0, 0, -(4/3)⟩, ⟨1/12, 0, 1/2⟩⟩, ⟨⟨0, 0, 0⟩, ⟨1/4, 0, 1/2⟩⟩,
          ⟨⟨0, 0, 4/3⟩, ⟨5/12, 0, 1/2⟩⟩] : List Vertex).map Vertex.pos)[k]? =
        some ((⟨0, 0, 0⟩ : Vec3) +
          ((((k : ℝ) - ((1 : ℤ) : ℝ)) * (2:ℝ) ^ 2) / (((1 : ℤ) : ℝ) * 2 + 1)) •
            (⟨0, 0, 1⟩ : Vec3)) :=
  row_vertices_spacing ⟨⟨0, 0, 0⟩, ⟨3, 0, 0⟩, 0, 0⟩ (1/2) 1 2 2 ⟨0, 0, 1⟩
    (road_norm_straight _ 3 (by norm_num) 0) _ demo_row0

/-- Conjugation by a product is the composition of the conjugations: the
right factor acts on the vector first. -/
theorem transform_vector_mul (p q : Quat) (v : Vec3) :
    transform_vector (p * q) v = transform_vector p (transform_vector q v) := by
  cases p
  cases q
  cases v
  ext <;> simp [transform_vector, Quat.mul, Quat.conj, Quat.ofVec, Quat.vec] <;> ring

/-- C9 (amended): the convention actually implemented composes the other way
round: acting on a vector, the rotation aligning the reference axis with the
derivative (the right factor, `rotation_between`) is applied first, and the
twist about the raw derivative axis (the left factor, `from_axis_angle`)
second. -/
theorem quaternion_align_first_twist_second (s : TrackSample) (axis : Vec3)
    (r : Quat) (h : rotation_between axis s.derivative = some r) (v : Vec3) :
    ∃ q, s.quaternion axis = some q ∧
      transform_vector q v =
        transform_vector (from_axis_angle (new_normalize s.derivative) s.angle)
          (transform_vector r v) :=
  ⟨from_axis_angle (new_normalize s.derivative) s.angle * r,
   by rw [TrackSample.quaternion, h, Option.map_some'],
   transform_vector_mul _ _ v⟩

theorem rb_straight : rotation_between ⟨1, 0, 0⟩ ⟨3, 0, 0⟩ = some Quat.one := by
  rw [show (⟨3, 0, 0⟩ : Vec3) = (3 : ℝ) • ⟨1, 0, 0⟩ from by ext <;> norm_num,
    rotation_between_smul_self ⟨1, 0, 0⟩ 3 (by norm_num) (by norm_num [Vec3.normSq]),
    if_neg (by norm_num)]

/-- Witness for the amended C9 on the straight demo sample. -/
theorem quaternion_align_first_twist_second_w :
    ∃ q, demo_sample0.quaternion ⟨1, 0, 0⟩ = some q ∧
      transform_vector q ⟨0, 0, 1⟩ =
        transform_vector
          (from_axis_angle (new_normalize demo_sample0.derivative)
            demo_sample0.angle)
          (transform_vector Quat.one ⟨0, 0, 1⟩) :=
  quaternion_align_first_twist_second demo_sample0 ⟨1, 0, 0⟩ Quat.one
    rb_straight ⟨0, 0, 1⟩

theorem try_normalize_unit (v : Vec3) (h : v.normSq = 1) :
    try_normalize v = some v := by
  rw [try_normalize, if_neg (by rw [h]; norm_num)]
  have hn : v.norm = 1 := Vec3.norm_eval v 1 (by norm_num) (by rw [h]; norm_num)
  rw [hn]
  refine congrArg some ?_
  cases v
  ext <;> simp

theorem new_normalize_unit (v : Vec3) (h : v.normSq = 1) : new_normalize v = v := by
  rw [new_normalize, Vec3.norm_eval v 1 (by norm_num) (by rw [h]; norm_num)]
  cases v
  ext <;> simp

theorem twist_d_normSq : (⟨7/25, 24/25, 0⟩ : Vec3).normSq = 1 := by
  norm_num [Vec3.normSq]

/-- `rotation_between` of the x axis and the unit vector `(7/25, 24/25, 0)`:
rotation about the z axis by `arccos (7/25)`, whose half-angle cosine and sine
are `4/5` and `3/5`. -/
theorem rb_twist_eval :
    rotation_between ⟨1, 0, 0⟩ ⟨7/25, 24/25, 0⟩ = some ⟨4/5, 0, 0, 3/5⟩ := by
  rw [rotation_between, try_normalize_unit ⟨1, 0, 0⟩ (by norm_num [Vec3.normSq]),
    try_normalize_unit _ twist_d_normSq]
  have hcross : (⟨1, 0, 0⟩ : Vec3).cross ⟨7/25, 24/25, 0⟩ = ⟨0, 0, 24/25⟩ := by
    ext <;> simp [Vec3.cross]
  have htn : try_normalize (⟨0, 0, 24/25⟩ : Vec3) = some ⟨0, 0, 1⟩ := by
    rw [try_normalize, if_neg (by norm_num [Vec3.normSq])]
    rw [Vec3.norm_eval _ (24/25) (by norm_num) (by norm_num [Vec3.normSq])]
    refine congrArg some ?_
    ext <;> simp <;> norm_num
  have hdot : (⟨1, 0, 0⟩ : Vec3).dot ⟨7/25, 24/25, 0⟩ = 7/25 := by
    norm_num [Vec3.dot]
  simp only [hcross, htn, hdot]
  refine congrArg some ?_
  rw [from_axis_angle]
  have harc1 : Real.cos (Real.arccos (7/25) / 2) = 4/5 := by
    rw [Real.cos_half
      (by linarith [Real.arccos_nonneg (7/25 : ℝ), Real.pi_pos])
      (Real.arccos_le_pi _)]
    rw [Real.cos_arccos (by norm_num) (by norm_num)]
    rw [show (1 + 7/25 : ℝ) / 2 = (4/5) ^ 2 from by norm_num]
    exact Real.sqrt_sq (by norm_num)
  have harc2 : Real.sin (Real.arccos (7/25) / 2) = 3/5 := by
    rw [Real.sin_half_eq_sqrt (Real.arccos_nonneg _)
      (by linarith [Real.arccos_le_pi (7/25 : ℝ), Real.pi_pos])]
    rw [Real.cos_arccos (by norm_num) (by norm_num)]
    rw [show (1 - 7/25 : ℝ) / 2 = (3/5) ^ 2 from by norm_num]
    exact Real.sqrt_sq (by norm_num)
  rw [harc1, harc2]
  norm_num

/-- The twist factor on `twist_sample`: rotation by `π` about the unit
derivative. -/
theorem faa_twist_eval :
    from_axis_angle (⟨7/25, 24/25, 0⟩ : Vec3) Real.pi = ⟨0, 7/25, 24/25, 0⟩ := by
  rw [from_axis_angle]
  norm_num [Real.cos_pi_div_two, Real.sin_pi_div_two]

/-- Counterexample for C9 as stated: on `twist_sample` (unit derivative
`(7/25, 24/25, 0)`, twist `π`) the code's composition
`from_axis_angle * rotation_between` gives the quaternion `(0, 4/5, 3/5, 0)`,
while the claim's order (align as left factor, twist applied first) gives
`(0, -44/125, 117/125, 0)` — two different rotations. -/
theorem quaternion_order_counterexample :
    twist_sample.quaternion ⟨1, 0, 0⟩ = some ⟨0, 4/5, 3/5, 0⟩ ∧
    quaternion_claim_order twist_sample ⟨1, 0, 0⟩ =
      some ⟨0, -(44/125), 117/125, 0⟩ ∧
    twist_sample.quaternion ⟨1, 0, 0⟩ ≠
      quaternion_claim_order twist_sample ⟨1, 0, 0⟩ := by
  have hcode : twist_sample.quaternion ⟨1, 0, 0⟩ = some ⟨0, 4/5, 3/5, 0⟩ := by
    rw [TrackSample.quaternion,
      show twist_sample.derivative = (⟨7/25, 24/25, 0⟩ : Vec3) from rfl,
      rb_twist_eval, Option.map_some']
    refine congrArg some ?_
    rw [new_normalize_unit _ twist_d_normSq,
      show twist_sample.angle = Real.pi from rfl, faa_twist_eval]
    simp only [Quat.mul_def, Quat.mul]
    norm_num
  have hspec : quaternion_claim_order twist_sample ⟨1, 0, 0⟩ =
      some ⟨0, -(44/125), 117/125, 0⟩ := by
    rw [quaternion_claim_order,
      show twist_sample.derivative = (⟨7/25, 24/25, 0⟩ : Vec3) from rfl,
      rb_twist_eval, Option.map_some']
    refine congrArg some ?_
    rw [new_normalize_unit _ twist_d_normSq,
      show twist_sample.angle = Real.pi from rfl, faa_twist_eval]
    simp only [Quat.mul_def, Quat.mul]
    norm_num
  refine ⟨hcode, hspec, ?_⟩
  rw [hcode, hspec]
  intro h
  have hx := congrArg Quat.x ((Option.some.injEq _ _).mp h)
  norm_num at hx

end
